import Mathlib

/-!
Verification of the angel-lsp semantic-analyzer subsystems: shallow Lean
embeddings of the hoist pipeline, symbol scopes, the workspace analysis
resolver, the signature-help service and the recursive-descent parser,
with theorems settling the specification claims about them.
-/

set_option maxHeartbeats 1000000

/-! ## Parser reading state (`ReadingState` in the parser source)

The reading state holds the token list and a cursor.  `next()` clamps the
read to the final token when the cursor is at or past the end of the list.
Tokens are opaque; fallible indexing is made explicit with `Option`.
-/

namespace Parser

structure ReadingState (α : Type) where
  tokens : List α
  pos : Nat

/-- Embeds `ReadingState.next`: out-of-range reads return the final token.
The source indexes the array directly; the embedding returns `Option` so
that totality is a statement, not an assumption. -/
def ReadingState.next (s : ReadingState α) : Option α :=
  if s.pos ≥ s.tokens.length then s.tokens.get? (s.tokens.length - 1)
  else s.tokens.get? s.pos

/-- Embeds `ReadingState.isEnd`. -/
def ReadingState.isEnd (s : ReadingState α) : Bool :=
  s.pos ≥ s.tokens.length

/-- Embeds the reading state constructed by `parseFromTokens`: cursor at 0. -/
def initialReadingState (tokens : List α) : ReadingState α :=
  { tokens := tokens, pos := 0 }

end Parser

/-! ## Workspace analysis resolver (`AnalysisResolver` in the resolver source) -/

namespace Resolver

/-- Embeds the `mediumWaitTime` constant (ms). -/
def mediumWaitTime : Nat := 500

/-- Embeds the `shortWaitTime` constant (ms). -/
def shortWaitTime : Nat := 100

/-- Embeds the `veryShortWaitTime` constant (ms). -/
def veryShortWaitTime : Nat := 10

/-- The three priority tiers of `AnalysisQueue`, holding per-file records
(records are opaque here). -/
structure AnalysisQueue (ρ : Type) where
  direct : List ρ
  indirect : List ρ
  lazyIndirect : List ρ

def AnalysisQueue.hasDirect (q : AnalysisQueue ρ) : Bool := !q.direct.isEmpty

def AnalysisQueue.hasIndirect (q : AnalysisQueue ρ) : Bool := !q.indirect.isEmpty

def AnalysisQueue.hasLazyIndirect (q : AnalysisQueue ρ) : Bool := !q.lazyIndirect.isEmpty

/-- Embeds `AnalysisResolver.rescheduleAnalyze`: the chosen wait time for the
single delayed task, or `none` when no task is scheduled. -/
def rescheduleAnalyze (q : AnalysisQueue ρ) : Option Nat :=
  if q.hasDirect then some veryShortWaitTime
  else if q.hasIndirect then some shortWaitTime
  else if q.hasLazyIndirect then some mediumWaitTime
  else none

end Resolver

/-! ## Symbol scopes (`symbolScopes.ts` / `symbolScope.ts`)

Child-scope tables are association lists keyed by identifier; linked AST
nodes are opaque and compared by identity, modelled as `Nat`. -/

namespace SymbolScopes

/-- A scope node: its optional linked AST node, its key, and its child-scope
table (`childScopes` in the source).  The symbol table is irrelevant to the
claims settled in this namespace and is omitted. -/
inductive Scope : Type where
  | mk (ownerNode : Option Nat) (key : String) (childScopes : List (String × Scope))

def Scope.ownerNode : Scope → Option Nat
  | .mk o _ _ => o

def Scope.key : Scope → String
  | .mk _ k _ => k

def Scope.childScopes : Scope → List (String × Scope)
  | .mk _ _ c => c

/-- Association-list lookup, the embedding of `Map.get`. -/
def lookupAssoc (table : List (String × α)) (key : String) : Option α :=
  match table with
  | [] => none
  | (k, v) :: rest => if k = key then some v else lookupAssoc rest key

/-- Association-list update-or-insert, the embedding of `Map.set`. -/
def setAssoc (table : List (String × α)) (key : String) (value : α) :
    List (String × α) :=
  match table with
  | [] => [(key, value)]
  | (k, v) :: rest =>
    if k = key then (k, value) :: rest else (k, v) :: setAssoc rest key value

/-- Embeds `findScopeShallowly`: a non-recursive child-scope lookup. -/
def findScopeShallowly (scope : Scope) (identifier : String) : Option Scope :=
  lookupAssoc scope.childScopes identifier

/-- Embeds `createSymbolScope`: a fresh scope with empty tables. -/
def createSymbolScope (ownerNode : Option Nat) (key : String) : Scope :=
  .mk ownerNode key []

/-- Embeds `findScopeShallowlyThenInsertByIdentifier` (the body of
`insertScope`).  Returns the updated parent together with the found or
created child.  A found child with no linked node adopts the supplied one. -/
def insertScopeByIdentifier (ownerNode : Option Nat) (scope : Scope)
    (identifier : String) : Scope × Scope :=
  match findScopeShallowly scope identifier with
  | none =>
    let fresh := createSymbolScope ownerNode identifier
    (.mk scope.ownerNode scope.key (setAssoc scope.childScopes identifier fresh),
     fresh)
  | some found =>
    match ownerNode with
    | none => (scope, found)
    | some o =>
      match found.ownerNode with
      | none =>
        let adopted := Scope.mk (some o) found.key found.childScopes
        (.mk scope.ownerNode scope.key
           (setAssoc scope.childScopes identifier adopted),
         adopted)
      | some _ => (scope, found)

/-- Embeds `findScopeShallowlyOrInsert`: like `insertScopeByIdentifier`, but
additionally reports (`true`) the duplicate-symbol diagnostic emitted when a
non-absent node is supplied and the found scope holds a different node. -/
def findScopeShallowlyOrInsert (ownerNode : Option Nat) (scope : Scope)
    (identifier : String) : Scope × Scope × Bool :=
  let r := insertScopeByIdentifier ownerNode scope identifier
  let emitted :=
    match ownerNode with
    | none => false
    | some o =>
      match r.2.ownerNode with
      | none => true
      | some f => decide (o ≠ f)
  (r.1, r.2, emitted)

/-- Decimal numeral of a natural number (the rendering of a JavaScript
template `${n}` for a non-negative counter). -/
def decStr (n : Nat) : String :=
  if n = 0 then "0" else ⟨((Nat.digits 10 n).map Nat.digitChar).reverse⟩

/-- Embeds `createAnonymousIdentifier`: the shared counter is threaded as
explicit state holding the next value to use (the source keeps the last used
value, starting at -1, and pre-increments). -/
def createAnonymousIdentifier (state : Nat) : String × Nat :=
  ("~" ++ decStr state, state + 1)

/-- Embeds `isAnonymousIdentifier`: the identifier starts with the
character `~` (stated on the character list underlying the string). -/
def isAnonymousIdentifier (identifier : String) : Bool :=
  match identifier.data with
  | [] => false
  | c :: _ => c = '~'

end SymbolScopes

/-! ## Base-class member copying and `super` injection (`hoist.ts`)

Symbols carry the fields `copyBaseMembers` and the deferred class-hoist step
inspect: identifier text, kind, access restriction, and (for types) the
members-scope path.  A symbol holder is the non-empty overload list returned
by `SymbolHolder.toList()` (a singleton for non-functions). -/

namespace BaseMembers

inductive SymbolKind : Type where
  | typeKind | variableKind | functionKind
deriving DecidableEq

inductive AccessModifier : Type where
  | privateAccess | protectedAccess
deriving DecidableEq

structure MSymbol where
  name : String
  kind : SymbolKind
  access : Option AccessModifier
  membersScopePath : Option Nat
deriving DecidableEq

def MSymbol.isFunction (s : MSymbol) : Bool := s.kind = SymbolKind.functionKind

def MSymbol.isVariable (s : MSymbol) : Bool := s.kind = SymbolKind.variableKind

/-- A holder as exposed by `toList()`. -/
abbrev Holder := List MSymbol

/-- Embeds `SymbolHolder.isFunctionHolder`: a non-empty list of overloads,
all of them functions. -/
def isFunctionHolder (h : Holder) : Bool :=
  !h.isEmpty && h.all (·.isFunction)

/-- A symbol table (`symbolTable` on a scope), keyed by identifier. -/
abbrev Table := List (String × Holder)

/-- Modelled from the spec: `SymbolScope.insertSymbol` lives in
`symbolScope.ts`, outside the given sources.  Per the spec: if no holder is
at the identifier, install the symbol and return none; if a function holder
exists and the new symbol is a function, append the overload and return
none; otherwise return the existing holder untouched. -/
def insertSymbol (table : Table) (s : MSymbol) : Table × Option Holder :=
  match SymbolScopes.lookupAssoc table s.name with
  | none => (SymbolScopes.setAssoc table s.name [s], none)
  | some h =>
    if isFunctionHolder h && s.isFunction then
      (SymbolScopes.setAssoc table s.name (h ++ [s]), none)
    else
      (table, some h)

/-- A resolved type as far as these claims inspect it: the wrapped
type-or-function symbol. -/
structure ResolvedType where
  typeOrFunc : MSymbol

/-- Embeds the member-insertion step inside `copyBaseMembers`: insert the
symbol and report (`true`) the duplicate-symbol diagnostic emitted when the
insertion returned an already-existing holder. -/
def insertBaseMember (table : Table) (s : MSymbol) : Table × Bool :=
  let r := insertSymbol table s
  (r.1, r.2.isSome)

/-- Embeds the private-member filter and insertion for one symbol of a base
holder inside `copyBaseMembers`. -/
def insertFilteredMember (acc : Table × List Bool) (s : MSymbol) :
    Table × List Bool :=
  if (s.isFunction || s.isVariable)
      && decide (s.access = some AccessModifier.privateAccess) then
    acc
  else
    let r := insertBaseMember acc.1 s
    (r.1, acc.2 ++ [r.2])

/-- Embeds the handling of one base symbol-table entry inside
`copyBaseMembers`: skip the key `this`, otherwise insert every symbol of the
holder through the filter. -/
def copyHolderEntry (acc : Table × List Bool) (entry : String × Holder) :
    Table × List Bool :=
  if entry.1 = "this" then acc else entry.2.foldl insertFilteredMember acc

/-- Embeds the per-base-scope body of `copyBaseMembers`: iterate the base
scope's symbol table, skip the key `this`, skip private functions and
variables, insert the rest, collecting diagnostic flags. -/
def copyMembersOfBase (table : Table) (baseTable : Table) : Table × List Bool :=
  baseTable.foldl copyHolderEntry (table, [])

/-- Embeds the handling of one entry of the base list inside
`copyBaseMembers`: skip unresolved entries, function-typed bases and bases
whose members scope does not resolve; `resolve` stands for
`tryResolveActiveScope` on the active global scope. -/
def copyOneBase (resolve : Nat → Option Table) (acc : Table × List Bool)
    (base : Option ResolvedType) : Table × List Bool :=
  match base with
  | none => acc
  | some baseType =>
    if baseType.typeOrFunc.isFunction then acc
    else
      match baseType.typeOrFunc.membersScopePath with
      | none => acc
      | some path =>
        match resolve path with
        | none => acc
        | some baseTable =>
          let r := copyMembersOfBase acc.1 baseTable
          (r.1, acc.2 ++ r.2)

/-- Embeds `copyBaseMembers`: iterate the base list. -/
def copyBaseMembers (resolve : Nat → Option Table) (table : Table)
    (baseList : List (Option ResolvedType)) : Table × List Bool :=
  baseList.foldl (copyOneBase resolve) (table, [])

/-- The refinement comparison point, written from the spec's words on
`insert-symbol`: a collision is an insertion into a table that already binds
the identifier, unless a function joins an existing function holder. -/
def specCollision (table : Table) (s : MSymbol) : Prop :=
  ∃ h, SymbolScopes.lookupAssoc table s.name = some h ∧
    ¬(isFunctionHolder h = true ∧ s.isFunction = true)

/-- Embeds the `clone` call inside the deferred class-hoist step: the base
constructor renamed `super` with private access. -/
def cloneAsSuper (ctor : MSymbol) : MSymbol :=
  { ctor with name := "super", access := some AccessModifier.privateAccess }

/-- Modelled from the spec: `findConstructorOfType` lives in
`constrcutorCall.ts`, outside the given sources.  A constructor of a class
type is an overload holder in the type's members scope keyed by the type's
own identifier. -/
def findConstructorOfType (resolve : Nat → Option Table)
    (rt : Option ResolvedType) : Option Holder :=
  match rt with
  | none => none
  | some r =>
    match r.typeOrFunc.membersScopePath with
    | none => none
    | some path =>
      match resolve path with
      | none => none
      | some t => SymbolScopes.lookupAssoc t r.typeOrFunc.name

/-- Embeds the `super`-injection tail of the second deferred hoist step in
`hoistClass`: when the base list exists, clone every constructor of the
first base (if its holder is a function holder) into the class scope under
the name `super`. -/
def insertSuperConstructors (resolve : Nat → Option Table) (table : Table)
    (baseList : Option (List (Option ResolvedType))) : Table :=
  match baseList with
  | none => table
  | some bl =>
    let primeBase : Option ResolvedType :=
      match bl with
      | [] => none
      | x :: _ => x
    match findConstructorOfType resolve primeBase with
    | none => table
    | some h =>
      if isFunctionHolder h then
        h.foldl (fun acc ctor => (insertSymbol acc (cloneAsSuper ctor)).1) table
      else table

/-- The constructors the claim speaks about: overloads of the first base's
constructor holder, empty when the base list is missing, empty, unresolved,
or the first base has no constructor function holder. -/
def constructorsOfFirstBase (resolve : Nat → Option Table)
    (baseList : Option (List (Option ResolvedType))) : List MSymbol :=
  match baseList with
  | none => []
  | some bl =>
    let primeBase : Option ResolvedType :=
      match bl with
      | [] => none
      | x :: _ => x
    match findConstructorOfType resolve primeBase with
    | none => []
    | some h => if isFunctionHolder h then h else []

/-- Well-formedness of a symbol table: every held symbol is keyed by its own
identifier text (the data-model invariant of per-scope symbol tables). -/
def WellKeyed (table : Table) : Prop :=
  ∀ p ∈ table, ∀ s ∈ p.2, s.name = p.1

/-- A symbol the base-copy filter admits: not a function or variable with
private access restriction. -/
def AdmittedByFilter (x : MSymbol) : Prop :=
  ¬((x.isFunction || x.isVariable) = true
      ∧ x.access = some AccessModifier.privateAccess)

/-- How a symbol table may evolve under base-member copying: the `this`
entry is untouched, and every held symbol either was already held under the
same key or passed the private-member filter. -/
def PreservesBaseCopy (t0 t1 : Table) : Prop :=
  SymbolScopes.lookupAssoc t1 "this" = SymbolScopes.lookupAssoc t0 "this" ∧
  ∀ k h x, SymbolScopes.lookupAssoc t1 k = some h → x ∈ h →
    (∃ h0, SymbolScopes.lookupAssoc t0 k = some h0 ∧ x ∈ h0) ∨ AdmittedByFilter x

end BaseMembers

/-! ## Function hoisting and property accessors (`hoistFunc` in `hoist.ts`)

Here symbols additionally carry the resolved type (`returnType` for
functions, `type` for variables; resolved types are opaque) and the
instance-member flag, which the synthetic property-accessor variable copies
from the function. -/

namespace FuncHoist

open BaseMembers (SymbolKind AccessModifier)

structure FSymbol where
  name : String
  kind : SymbolKind
  typ : Option Nat
  isInstanceMember : Bool
  access : Option AccessModifier
deriving DecidableEq

def FSymbol.isFunction (s : FSymbol) : Bool := s.kind = SymbolKind.functionKind

abbrev FHolder := List FSymbol

def isFunctionHolder (h : FHolder) : Bool :=
  !h.isEmpty && h.all (·.isFunction)

abbrev FTable := List (String × FHolder)

/-- Modelled from the spec: `SymbolScope.insertSymbol` (same contract as in
`BaseMembers`, over the richer symbol record). -/
def insertSymbol (table : FTable) (s : FSymbol) : FTable × Option FHolder :=
  match SymbolScopes.lookupAssoc table s.name with
  | none => (SymbolScopes.setAssoc table s.name [s], none)
  | some h =>
    if isFunctionHolder h && s.isFunction then
      (SymbolScopes.setAssoc table s.name (h ++ [s]), none)
    else
      (table, some h)

/-- Modelled from the spec: `insertSymbolAndCheck` inserts and emits a
duplicate-symbol diagnostic on collision, reporting success. -/
def insertSymbolAndCheck (table : FTable) (s : FSymbol) : FTable × Bool :=
  let r := insertSymbol table s
  (r.1, r.2.isNone)

/-- Embeds the JavaScript `text.startsWith(marker)` on identifier text
(stated on the character lists underlying the strings). -/
def textStartsWith (text marker : String) : Bool :=
  decide (text.data.take marker.data.length = marker.data)

/-- Embeds `text.substring(4)`: the identifier with its first four
characters removed. -/
def dropMarker (text : String) : String :=
  ⟨text.data.drop 4⟩

/-- The inputs of `hoistFunc` that decide the property-accessor logic: the
function node fields and the `explicitPropertyAccessor` setting.
`returnType` is the resolved type computed from the head via `analyzeType`
(absent for heads without a return value). -/
structure FuncNodeInput where
  isDestructorHead : Bool
  identifierText : String
  funcAttrIsProperty : Bool
  accessor : Option AccessModifier
  returnType : Option Nat
deriving DecidableEq

/-- The diagnostics `hoistFunc` can emit in the hoisted slice. -/
inductive FuncDiag : Type where
  | duplicateSymbol
  | propertyAccessorName
deriving DecidableEq

/-- The synthetic property-accessor variable inserted by `hoistFunc`: the
identifier with its first four characters removed, the function's return
type, and the function's instance/access profile. -/
def syntheticPropertyVariable (node : FuncNodeInput) (isInstanceMember : Bool) :
    FSymbol :=
  { name := dropMarker node.identifierText
    kind := SymbolKind.variableKind
    typ := node.returnType
    isInstanceMember := isInstanceMember
    access := node.accessor }

/-- The function symbol `hoistFunc` inserts into the parent scope. -/
def hoistedFunctionSymbol (node : FuncNodeInput) (isInstanceMember : Bool) :
    FSymbol :=
  { name := node.identifierText
    kind := SymbolKind.functionKind
    typ := node.returnType
    isInstanceMember := isInstanceMember
    access := node.accessor }

/-- Embeds the scope-visible slice of `hoistFunc`: the destructor early
return, the function-symbol insertion with its duplicate check, and the
property-accessor branch.  The function-holder child scope and the deferred
parameter/body tasks do not touch the parent symbol table and are settled by
the hoist-pipeline claims. -/
def hoistFunc (explicitPropertyAccessor : Bool) (parentTable : FTable)
    (node : FuncNodeInput) (isInstanceMember : Bool) : FTable × List FuncDiag :=
  if node.isDestructorHead then (parentTable, [])
  else
    let inserted := insertSymbolAndCheck parentTable
      (hoistedFunctionSymbol node isInstanceMember)
    if !inserted.2 then (inserted.1, [FuncDiag.duplicateSymbol])
    else if textStartsWith node.identifierText "get_"
        || textStartsWith node.identifierText "set_" then
      if node.funcAttrIsProperty || !explicitPropertyAccessor then
        ((insertSymbol inserted.1
            (syntheticPropertyVariable node isInstanceMember)).1, [])
      else (inserted.1, [])
    else if node.funcAttrIsProperty then
      (inserted.1, [FuncDiag.propertyAccessorName])
    else (inserted.1, [])

end FuncHoist

/-! ## The hoist pipeline (`hoistAfterParsed` in `hoist.ts`)

A deferred hoist task is abstracted by its observable effects: the further
hoist tasks it pushes onto the hoist queue (such as the nested
base-member-copy step pushed inside `hoistClass`) and the analyze tasks it
pushes onto the analyze queue.  Analyze tasks are opaque.  Executions are
recorded as events so phase ordering is a statement about traces. -/

namespace HoistPipeline

/-- A deferred hoist task: the hoist tasks and analyze tasks it enqueues
when it runs. -/
inductive HoistTask (α : Type) : Type where
  | mk (sub : List (HoistTask α)) (an : List α)

/-- An execution event: a hoist task ran, or an analyze task ran. -/
inductive Event (α : Type) : Type where
  | hoistExec
  | analyzeExec (task : α)
deriving DecidableEq

/-- Embeds the `while (hoistQueue.length > 0)` drain loop of
`hoistAfterParsed`: pop the front task, run it (its sub-tasks join the back
of the hoist queue, its analyze tasks the back of the analyze queue), until
the hoist queue is empty.  Returns the event trace of the drain together
with the final analyze queue. -/
def drainHoist : List (HoistTask α) → List α → List (Event α) × List α
  | [], anQ => ([], anQ)
  | .mk sub an :: rest, anQ =>
    let r := drainHoist (rest ++ sub) (anQ ++ an)
    (Event.hoistExec :: r.1, r.2)
termination_by q _ => sizeOf q
decreasing_by
  have h : sizeOf (rest ++ sub) + 1 = sizeOf rest + sizeOf sub := by
    induction rest with
    | nil => simp; omega
    | cons x xs ih => simp [List.cons_append]; omega
  simp at *
  omega

/-- The number of hoist tasks in a queue, counting nested deferred tasks. -/
def forestCount : List (HoistTask α) → Nat
  | [] => 0
  | .mk sub _ :: rest => 1 + forestCount sub + forestCount rest
termination_by q => sizeOf q
decreasing_by
  all_goals simp
  all_goals omega

/-- Embeds `hoistAfterParsed` after the recursive `hoistScript` walk: the
walk's output is the initial hoist queue and analyze queue; the hoist queue
is then drained to completion and the analyze queue is returned. -/
def hoistAfterParsed (hoistQueue : List (HoistTask α)) (analyzeQueue : List α) :
    List (Event α) × List α :=
  drainHoist hoistQueue analyzeQueue

/-- Modelled from the spec: `analyzeAfterHoisted` lives in `analyzer.ts`,
outside the given sources; per the spec it drains the analyze queue built
during hoist, running each task in FIFO order. -/
def analyzeAfterHoisted (analyzeQueue : List α) : List (Event α) :=
  analyzeQueue.map Event.analyzeExec

/-- Embeds the hoist-then-analyze sequencing of
`AnalysisResolver.analyzeFile`: run `hoistAfterParsed`, then run
`analyzeAfterHoisted` on the analyze queue it returns; the value is the
combined execution trace. -/
def analyzeFileTrace (hoistQueue : List (HoistTask α)) (analyzeQueue : List α) :
    List (Event α) :=
  let hoistResult := hoistAfterParsed hoistQueue analyzeQueue
  hoistResult.1 ++ analyzeAfterHoisted hoistResult.2

end HoistPipeline

/-! ## Signature help (`signatureHelp.ts`)

The matched `FunctionCall` complement hint exposes the caret-relevant data:
per argument, the start position of its `assign` node range and the token
following its range (a comma or not, with the comma's position). -/

namespace SigHelp

/-- A text position, as in `TextPosition` (line, then character). -/
structure TextPosition where
  line : Nat
  character : Nat
deriving DecidableEq

/-- Embeds `TextPosition.isLessThan`: lexicographic order on
(line, character). -/
def TextPosition.isLessThan (a b : TextPosition) : Bool :=
  a.line < b.line || (a.line = b.line && a.character < b.character)

/-- One entry of `hint.callerArgumentsNode.argList`: the start of the
argument's node range and, when the token following the range is a comma,
that comma's position. -/
structure ArgRange where
  start : TextPosition
  nextComma : Option TextPosition
deriving DecidableEq

/-- Whether the token after the argument's range is a comma
(`passingRanges[i].end.next?.text === ','`). -/
def ArgRange.nextIsComma (a : ArgRange) : Bool := a.nextComma.isSome

/-- An overload of the callee, as far as the claim inspects it: the length
of its `paramList`. -/
structure FunctionDef where
  paramCount : Nat
deriving DecidableEq

/-- Embeds the `activeIndex` loop of `getFunctionSignature`: iterate the
parameter indices; whenever the argument at that index exists and starts at
or before the caret, make it active, advancing once more when a comma
follows that argument. -/
def computeActiveIndex (caret : TextPosition) (passingRanges : List ArgRange)
    (paramCount : Nat) : Nat :=
  (List.range paramCount).foldl
    (fun acc i =>
      match passingRanges.get? i with
      | none => acc
      | some arg =>
        if caret.isLessThan arg.start then acc
        else if arg.nextIsComma then i + 1
        else i)
    0

/-- A produced `SignatureInformation`, reduced to the fields the claim
constrains. -/
structure Signature where
  paramCount : Nat
  activeParameter : Nat
deriving DecidableEq

/-- Embeds `getFunctionSignature` for one overload. -/
def getFunctionSignature (caret : TextPosition) (passingRanges : List ArgRange)
    (callee : FunctionDef) : Signature :=
  { paramCount := callee.paramCount
    activeParameter := computeActiveIndex caret passingRanges callee.paramCount }

/-- Embeds the overload loop of `provideSignatureHelp` once a
`FunctionCall` hint containing the caret has resolved to a function holder:
one signature is pushed per overload of the holder. -/
def provideSignatures (caret : TextPosition) (passingRanges : List ArgRange)
    (overloads : List FunctionDef) : List Signature :=
  overloads.map (getFunctionSignature caret passingRanges)

/-- Written from the spec's words: the number of commas separating
arguments that lie before the caret. -/
def commasBeforeCaret (caret : TextPosition) (passingRanges : List ArgRange) :
    Nat :=
  (passingRanges.filter
    (fun a =>
      match a.nextComma with
      | none => false
      | some p => p.isLessThan caret)).length

/-- The argument indices the loop can activate: indices below the parameter
count whose argument exists and starts at or before the caret. -/
def candidateIndices (caret : TextPosition) (passingRanges : List ArgRange)
    (paramCount : Nat) : List Nat :=
  (List.range paramCount).filter
    (fun i =>
      match passingRanges.get? i with
      | none => false
      | some arg => !caret.isLessThan arg.start)

/-- The closed form the amended claim states for the active parameter: the
last candidate argument index, advanced by one when a comma follows that
argument; 0 when no argument starts at or before the caret. -/
def specActiveIndex (caret : TextPosition) (passingRanges : List ArgRange)
    (paramCount : Nat) : Nat :=
  match (candidateIndices caret passingRanges paramCount).getLast? with
  | none => 0
  | some k =>
    match passingRanges.get? k with
    | none => k
    | some arg => if arg.nextIsComma then k + 1 else k

end SigHelp

/-! ## Pure-scope copying (`AnalyzedScope.pureScope` and
`copySymbolsInScope` in `symbolScopes.ts`)

Scopes here carry their symbol table and child-scope table; symbols carry
their declared-place path (`declaredPlace.location.path`).  `getPathOfScope`
lives in `symbolUtils.ts`, outside the given sources, so it is an arbitrary
function parameter; every theorem about the copy holds for all of its
behaviors. -/

namespace PureScope

structure PSymbol where
  declaredPath : String
deriving DecidableEq

inductive SScope : Type where
  | mk (ownerNode : Option Nat) (key : String)
      (symbolMap : List (String × PSymbol))
      (childScopes : List (String × SScope))

def SScope.ownerNode : SScope → Option Nat
  | .mk o _ _ _ => o

def SScope.key : SScope → String
  | .mk _ k _ _ => k

def SScope.symbolMap : SScope → List (String × PSymbol)
  | .mk _ _ s _ => s

def SScope.childScopes : SScope → List (String × SScope)
  | .mk _ _ _ c => c

def SScope.setSymbol (scope : SScope) (key : String) (s : PSymbol) : SScope :=
  match scope with
  | .mk o k syms children => .mk o k (SymbolScopes.setAssoc syms key s) children

def SScope.setChild (scope : SScope) (key : String) (c : SScope) : SScope :=
  match scope with
  | .mk o k syms children => .mk o k syms (SymbolScopes.setAssoc children key c)

/-- Embeds `CopySymbolOptions`. -/
structure CopyOptions where
  targetSrcPath : Option String
  excludeSrcPath : Option String

/-- Embeds the `canCopy` computation on one symbol. -/
def canCopySymbol (opt : CopyOptions) (s : PSymbol) : Bool :=
  (match opt.targetSrcPath with
   | none => true
   | some p => decide (s.declaredPath = p)) &&
  (match opt.excludeSrcPath with
   | none => true
   | some p => decide (s.declaredPath ≠ p))

/-- Embeds the symbol-collection loop of `copySymbolsInScope`: copy every
symbol passing the path filters into the destination's symbol table. -/
def copySymbolTable (opt : CopyOptions) (syms : List (String × PSymbol))
    (dest : SScope) : SScope :=
  syms.foldl
    (fun d kv => if canCopySymbol opt kv.2 then d.setSymbol kv.1 kv.2 else d)
    dest

/-- Whether the child-scope loop of `copySymbolsInScope` skips this child,
given the path `getPathOfScope` reports for it. -/
def skipChild (opt : CopyOptions) (scopePath : Option String) : Bool :=
  match scopePath with
  | none => false
  | some p =>
    (match opt.targetSrcPath with
     | none => false
     | some t => decide (p ≠ t)) ||
    (match opt.excludeSrcPath with
     | none => false
     | some e => decide (p = e))

/-- Embeds `findScopeShallowlyThenInsertByIdentifier` over these scopes:
find the destination child or create and insert a fresh one; a found child
with no linked node adopts the supplied one.  Returns the updated parent and
the found or created child. -/
def findOrInsertChild (ownerNode : Option Nat) (dest : SScope) (key : String) :
    SScope × SScope :=
  match SymbolScopes.lookupAssoc dest.childScopes key with
  | none =>
    let fresh := SScope.mk ownerNode key [] []
    (dest.setChild key fresh, fresh)
  | some found =>
    match ownerNode with
    | none => (dest, found)
    | some o =>
      match found.ownerNode with
      | none =>
        let adopted :=
          SScope.mk (some o) found.key found.symbolMap found.childScopes
        (dest.setChild key adopted, adopted)
      | some _ => (dest, found)

mutual

/-- Embeds `copySymbolsInScope`: copy the filtered symbols, then recurse
into each non-skipped child, finding-or-creating the matching destination
child. -/
def copySymbolsInScope (getPath : SScope → Option String) (opt : CopyOptions) :
    SScope → SScope → SScope
  | .mk _ _ ssyms schildren, dest =>
    copyChildScopes getPath opt schildren (copySymbolTable opt ssyms dest)
termination_by src _ => sizeOf src
decreasing_by
  all_goals simp

/-- The child-scope loop of `copySymbolsInScope`, one child at a time. -/
def copyChildScopes (getPath : SScope → Option String) (opt : CopyOptions) :
    List (String × SScope) → SScope → SScope
  | [], dest => dest
  | (key, child) :: rest, dest =>
    let dest' :=
      if skipChild opt (getPath child) then dest
      else
        let fi := findOrInsertChild child.ownerNode dest key
        fi.1.setChild key (copySymbolsInScope getPath opt child fi.2)
    copyChildScopes getPath opt rest dest'
termination_by children _ => sizeOf children
decreasing_by
  all_goals simp
  all_goals omega

end

mutual

/-- All symbols reachable in a scope's symbol tables, child scopes
included. -/
def allSymbols : SScope → List PSymbol
  | .mk _ _ syms children => syms.map (·.2) ++ allSymbolsOfChildren children
termination_by s => sizeOf s
decreasing_by
  all_goals simp

def allSymbolsOfChildren : List (String × SScope) → List PSymbol
  | [] => []
  | (_, c) :: rest => allSymbols c ++ allSymbolsOfChildren rest
termination_by children => sizeOf children
decreasing_by
  all_goals simp
  all_goals omega

end

/-- Embeds `AnalyzedScope`: the file path, the full scope, and the lazily
filled `pureBuffer`. -/
structure AnalyzedScope where
  path : String
  fullScope : SScope
  pureBuffer : Option SScope

/-- Embeds the `AnalyzedScope` constructor: the buffer starts empty. -/
def AnalyzedScope.new (path : String) (full : SScope) : AnalyzedScope :=
  { path := path, fullScope := full, pureBuffer := none }

/-- Embeds the `pureScope` getter: on the first read, create a fresh scope
mirroring the full scope's owner and key and copy the symbols declared at
the analyzed file's path into it, remembering it in `pureBuffer`; later
reads return the remembered scope. -/
def pureScope (getPath : SScope → Option String) (a : AnalyzedScope) :
    SScope × AnalyzedScope :=
  match a.pureBuffer with
  | some b => (b, a)
  | none =>
    let fresh := SScope.mk a.fullScope.ownerNode a.fullScope.key [] []
    let b := copySymbolsInScope getPath
      { targetSrcPath := some a.path, excludeSrcPath := none } a.fullScope fresh
    (b, { path := a.path, fullScope := a.fullScope, pureBuffer := some b })

end PureScope

/-! # Theorems

Shared helper lemmas first, then one theorem per specification claim (with
a closed witness whenever the theorem carries hypotheses). -/

namespace SymbolScopes

theorem lookupAssoc_setAssoc {α : Type} (t : List (String × α)) (k q : String)
    (v : α) :
    lookupAssoc (setAssoc t k v) q
      = if q = k then some v else lookupAssoc t q := by
  induction t with
  | nil =>
    by_cases h : q = k <;>
      simp_all [setAssoc, lookupAssoc, eq_comm]
  | cons kv rest ih =>
    obtain ⟨a, b⟩ := kv
    by_cases hak : a = k <;> by_cases haq : a = q <;> by_cases hqk : q = k <;>
      simp_all [setAssoc, lookupAssoc, eq_comm]

end SymbolScopes

/-- C8: `ReadingState.next` is total on a non-empty token list: for every
cursor position, also at or past the end, it returns a token of the list
(the final one when out of range), so parse functions over a non-empty
stream always receive a token. -/
theorem readingState_next_total {α : Type} (s : Parser.ReadingState α)
    (h : s.tokens ≠ []) :
    ∃ t, s.next = some t ∧ t ∈ s.tokens := by
  have hlen : 0 < s.tokens.length := List.length_pos.mpr h
  unfold Parser.ReadingState.next
  by_cases hp : s.pos ≥ s.tokens.length
  · have hidx : s.tokens.length - 1 < s.tokens.length := by omega
    refine ⟨s.tokens.get ⟨s.tokens.length - 1, hidx⟩, ?_, List.get_mem _ _ _⟩
    simp [hp, List.get?_eq_get hidx]
  · have hidx : s.pos < s.tokens.length := by omega
    refine ⟨s.tokens.get ⟨s.pos, hidx⟩, ?_, List.get_mem _ _ _⟩
    simp [hp, List.get?_eq_get hidx]

/-- Witness for C8: at an out-of-range cursor over a singleton stream the
read still yields a token of the stream. -/
theorem readingState_next_total_witness :
    ∃ t, (Parser.ReadingState.mk [0] 5).next = some t ∧ t ∈ [0] :=
  readingState_next_total (Parser.ReadingState.mk [0] 5) (by simp)

/-- C6: the rescheduled delayed task waits 10 ms when the direct queue is
non-empty, else 100 ms when the indirect queue is non-empty, else 500 ms
when the lazy-indirect queue is non-empty, and nothing is scheduled when
all three tiers are empty. -/
theorem rescheduleAnalyze_tiers {ρ : Type} (q : Resolver.AnalysisQueue ρ) :
    (q.hasDirect = true → Resolver.rescheduleAnalyze q = some 10) ∧
    (q.hasDirect = false → q.hasIndirect = true →
      Resolver.rescheduleAnalyze q = some 100) ∧
    (q.hasDirect = false → q.hasIndirect = false → q.hasLazyIndirect = true →
      Resolver.rescheduleAnalyze q = some 500) ∧
    (q.hasDirect = false → q.hasIndirect = false → q.hasLazyIndirect = false →
      Resolver.rescheduleAnalyze q = none) := by
  refine ⟨?_, ?_, ?_, ?_⟩ <;>
    intros <;>
    simp [Resolver.rescheduleAnalyze, Resolver.veryShortWaitTime,
      Resolver.shortWaitTime, Resolver.mediumWaitTime, *]

/-- Witness for C6: a queue with one direct entry schedules the 10 ms
wait. -/
theorem rescheduleAnalyze_tiers_witness :
    Resolver.rescheduleAnalyze (Resolver.AnalysisQueue.mk [0] [] []) = some 10 :=
  (rescheduleAnalyze_tiers (Resolver.AnalysisQueue.mk [0] [] [])).1 rfl

namespace SymbolScopes

/-- C5: the insert-scope-and-check operation creates and inserts a fresh
scope when no child exists; adopts the supplied linked node onto a found
child that lacks one, without a diagnostic; emits the duplicate-symbol
diagnostic exactly when a non-absent linked node is supplied and the found
child already holds a different one; and in every case returns the found or
created scope. -/
theorem findScopeShallowlyOrInsert_contract (owner : Option Nat)
    (sc : Scope) (id : String) :
    (findScopeShallowly sc id = none →
      (findScopeShallowlyOrInsert owner sc id).2.1
          = createSymbolScope owner id ∧
      (findScopeShallowlyOrInsert owner sc id).2.2 = false ∧
      findScopeShallowly (findScopeShallowlyOrInsert owner sc id).1 id
        = some (findScopeShallowlyOrInsert owner sc id).2.1) ∧
    (∀ f, findScopeShallowly sc id = some f →
      (owner = none →
        findScopeShallowlyOrInsert owner sc id = (sc, f, false)) ∧
      (∀ a, owner = some a → f.ownerNode = none →
        (findScopeShallowlyOrInsert owner sc id).2.1
            = Scope.mk (some a) f.key f.childScopes ∧
        (findScopeShallowlyOrInsert owner sc id).2.2 = false ∧
        findScopeShallowly (findScopeShallowlyOrInsert owner sc id).1 id
          = some (findScopeShallowlyOrInsert owner sc id).2.1) ∧
      (∀ a b, owner = some a → f.ownerNode = some b →
        findScopeShallowlyOrInsert owner sc id = (sc, f, decide (a ≠ b)))) := by
  refine ⟨?_, ?_⟩
  · intro hnone
    simp only [findScopeShallowlyOrInsert, insertScopeByIdentifier, hnone]
    cases owner with
    | none =>
      simp [createSymbolScope, findScopeShallowly, Scope.childScopes,
        Scope.ownerNode, lookupAssoc_setAssoc]
    | some a =>
      simp [createSymbolScope, findScopeShallowly, Scope.childScopes,
        Scope.ownerNode, lookupAssoc_setAssoc]
  · intro f hfound
    refine ⟨?_, ?_, ?_⟩
    · intro howner
      simp [findScopeShallowlyOrInsert, insertScopeByIdentifier, hfound, howner]
    · intro a howner hnode
      simp only [findScopeShallowlyOrInsert, insertScopeByIdentifier, hfound,
        howner, hnode]
      simp [findScopeShallowly, Scope.childScopes, Scope.ownerNode,
        lookupAssoc_setAssoc]
    · intro a b howner hnode
      simp [findScopeShallowlyOrInsert, insertScopeByIdentifier, hfound,
        howner, hnode]

/-- Witness for C5: inserting a class-linked scope under a fresh identifier
creates it without a diagnostic. -/
theorem findScopeShallowlyOrInsert_contract_witness :
    (findScopeShallowlyOrInsert (some 1) (Scope.mk none "g" []) "x").2.2
      = false :=
  ((findScopeShallowlyOrInsert_contract (some 1) (Scope.mk none "g" [])
    "x").1 rfl).2.1

theorem digitChar_inj_on :
    ∀ x < 10, ∀ y < 10, Nat.digitChar x = Nat.digitChar y → x = y := by
  decide

theorem mapDigitChar_inj :
    ∀ (l1 l2 : List Nat), (∀ x ∈ l1, x < 10) → (∀ x ∈ l2, x < 10) →
      l1.map Nat.digitChar = l2.map Nat.digitChar → l1 = l2 := by
  intro l1
  induction l1 with
  | nil => intro l2 _ _ h; cases l2 <;> simp_all
  | cons x xs ih =>
    intro l2 h1 h2 h
    cases l2 with
    | nil => simp_all
    | cons y ys =>
      simp only [List.map_cons, List.cons.injEq] at h
      have hx := h1 x (by simp)
      have hy := h2 y (by simp)
      have := digitChar_inj_on x hx y hy h.1
      subst this
      have := ih ys (fun a ha => h1 a (by simp [ha]))
        (fun a ha => h2 a (by simp [ha])) h.2
      simp [this]

theorem decStr_inj (m n : Nat) (h : decStr m = decStr n) : m = n := by
  unfold decStr at h
  by_cases hm : m = 0 <;> by_cases hn : n = 0 <;> simp [hm, hn] at h ⊢
  · exfalso
    have hdata : ("0" : String).data
        = ((Nat.digits 10 n).map Nat.digitChar).reverse := by rw [h]
    have h2 : (Nat.digits 10 n).map Nat.digitChar = ['0'] := by
      have := congrArg List.reverse hdata.symm
      simpa using this
    have hdig : Nat.digits 10 n = [0] := by
      apply mapDigitChar_inj
      · intro x hx; exact Nat.digits_lt_base (by norm_num) hx
      · intro x hx; simp at hx; omega
      · simpa using h2
    have := Nat.ofDigits_digits 10 n
    rw [hdig] at this
    simp [Nat.ofDigits] at this
    omega
  · exfalso
    have hdata : ((Nat.digits 10 m).map Nat.digitChar).reverse
        = ("0" : String).data := by rw [← h]
    have h2 : (Nat.digits 10 m).map Nat.digitChar = ['0'] := by
      have := congrArg List.reverse hdata
      simpa using this
    have hdig : Nat.digits 10 m = [0] := by
      apply mapDigitChar_inj
      · intro x hx; exact Nat.digits_lt_base (by norm_num) hx
      · intro x hx; simp at hx; omega
      · simpa using h2
    have := Nat.ofDigits_digits 10 m
    rw [hdig] at this
    simp [Nat.ofDigits] at this
    omega
  · have hdata : ((Nat.digits 10 m).map Nat.digitChar).reverse
        = ((Nat.digits 10 n).map Nat.digitChar).reverse :=
      congrArg String.data h
    have h2 := congrArg List.reverse hdata
    simp only [List.reverse_reverse] at h2
    have hdig : Nat.digits 10 m = Nat.digits 10 n := by
      apply mapDigitChar_inj
      · intro x hx; exact Nat.digits_lt_base (by norm_num) hx
      · intro x hx; exact Nat.digits_lt_base (by norm_num) hx
      · exact h2
    have h3 := congrArg (Nat.ofDigits 10) hdig
    simpa [Nat.ofDigits_digits] using h3

theorem createAnonymousIdentifier_data (n : Nat) :
    (createAnonymousIdentifier n).1.data = '~' :: (decStr n).data := by
  show ("~" ++ decStr n).data = '~' :: (decStr n).data
  rw [String.data_append]
  rfl

/-- C9: every identifier produced by `createAnonymousIdentifier` is
accepted by `isAnonymousIdentifier`; distinct counter states yield distinct
identifiers; and two anonymous scopes inserted under distinct freshly
generated identifiers in one function-holder scope both remain present. -/
theorem anonymousIdentifier_fresh :
    (∀ n, isAnonymousIdentifier (createAnonymousIdentifier n).1 = true) ∧
    (∀ m n : Nat, m ≠ n →
      (createAnonymousIdentifier m).1 ≠ (createAnonymousIdentifier n).1) ∧
    (∀ (m n : Nat) (holder : Scope) (node1 node2 : Nat), m ≠ n →
      findScopeShallowly holder (createAnonymousIdentifier m).1 = none →
      findScopeShallowly holder (createAnonymousIdentifier n).1 = none →
      findScopeShallowly
          (insertScopeByIdentifier (some node2)
            (insertScopeByIdentifier (some node1) holder
              (createAnonymousIdentifier m).1).1
            (createAnonymousIdentifier n).1).1
          (createAnonymousIdentifier m).1
        = some (insertScopeByIdentifier (some node1) holder
            (createAnonymousIdentifier m).1).2 ∧
      findScopeShallowly
          (insertScopeByIdentifier (some node2)
            (insertScopeByIdentifier (some node1) holder
              (createAnonymousIdentifier m).1).1
            (createAnonymousIdentifier n).1).1
          (createAnonymousIdentifier n).1
        = some (insertScopeByIdentifier (some node2)
            (insertScopeByIdentifier (some node1) holder
              (createAnonymousIdentifier m).1).1
            (createAnonymousIdentifier n).1).2) := by
  have hne : ∀ m n : Nat, m ≠ n →
      (createAnonymousIdentifier m).1 ≠ (createAnonymousIdentifier n).1 := by
    intro m n hmn heq
    have hdata := congrArg String.data heq
    rw [createAnonymousIdentifier_data, createAnonymousIdentifier_data] at hdata
    have hdec : decStr m = decStr n := by
      have htail := List.tail_eq_of_cons_eq hdata
      cases hm : decStr m with
      | mk dm =>
        cases hn2 : decStr n with
        | mk dn =>
          rw [hm, hn2] at htail
          simp at htail
          simp [hm, hn2, htail]
    exact hmn (decStr_inj m n hdec)
  refine ⟨?_, hne, ?_⟩
  · intro n
    unfold isAnonymousIdentifier
    rw [createAnonymousIdentifier_data]
    simp
  · intro m n holder node1 node2 hmn hm hn
    have hids := hne m n hmn
    simp only [insertScopeByIdentifier, hm]
    have hlook1 : findScopeShallowly
        (Scope.mk holder.ownerNode holder.key
          (setAssoc holder.childScopes (createAnonymousIdentifier m).1
            (createSymbolScope (some node1) (createAnonymousIdentifier m).1)))
        (createAnonymousIdentifier n).1 = none := by
      simp only [findScopeShallowly, Scope.childScopes, lookupAssoc_setAssoc]
      rw [if_neg (fun hh => hids hh.symm)]
      exact hn
    simp only [hlook1]
    constructor
    · simp only [findScopeShallowly, Scope.childScopes, lookupAssoc_setAssoc]
      rw [if_neg hids]
      simp [lookupAssoc_setAssoc]
    · simp [findScopeShallowly, Scope.childScopes, lookupAssoc_setAssoc]

/-- Witness for C9: two successive counter states produce distinct
identifiers. -/
theorem anonymousIdentifier_fresh_witness :
    (createAnonymousIdentifier 0).1 ≠ (createAnonymousIdentifier 1).1 :=
  anonymousIdentifier_fresh.2.1 0 1 (by decide)

end SymbolScopes

namespace HoistPipeline

theorem forestCount_append {α : Type} (xs ys : List (HoistTask α)) :
    forestCount (xs ++ ys) = forestCount xs + forestCount ys := by
  induction xs with
  | nil => simp [forestCount]
  | cons x rest ih =>
    cases x with
    | mk sub an => simp only [List.cons_append, forestCount, ih]; omega

theorem drainHoist_trace {α : Type} (q : List (HoistTask α)) (anQ : List α) :
    (drainHoist q anQ).1.length = forestCount q ∧
    ∀ e ∈ (drainHoist q anQ).1, e = Event.hoistExec := by
  induction q, anQ using drainHoist.induct with
  | case1 anQ => simp [drainHoist, forestCount]
  | case2 sub an rest anQ ih =>
    refine ⟨?_, ?_⟩
    · simp only [drainHoist, List.length_cons, ih.1, forestCount_append,
        forestCount]
      omega
    · intro e he
      simp only [drainHoist, List.mem_cons] at he
      rcases he with h | h
      · exact h
      · exact ih.2 e h

/-- C1: the hoist phase is two-phase-complete before analysis: after the
recursive walk hands over its queues, `hoistAfterParsed` drains the hoist
queue until it is empty — executing every deferred task, the tasks enqueued
by drained tasks included, as counted by `forestCount` — and the execution
trace of `analyzeFile` splits into the hoist executions followed by the
analyze executions, so no analyze-queue task runs before the drain is
complete. -/
theorem hoist_two_phase_complete {α : Type}
    (hoistQueue : List (HoistTask α)) (analyzeQueue : List α) :
    ∃ pre post,
      analyzeFileTrace hoistQueue analyzeQueue = pre ++ post ∧
      (∀ e ∈ pre, e = Event.hoistExec) ∧
      (∀ e ∈ post, ∃ a, e = Event.analyzeExec a) ∧
      pre.length = forestCount hoistQueue := by
  refine ⟨(hoistAfterParsed hoistQueue analyzeQueue).1,
    analyzeAfterHoisted (hoistAfterParsed hoistQueue analyzeQueue).2,
    rfl, ?_, ?_, ?_⟩
  · exact (drainHoist_trace hoistQueue analyzeQueue).2
  · intro e he
    simp only [analyzeAfterHoisted, List.mem_map] at he
    obtain ⟨a, _, ha⟩ := he
    exact ⟨a, ha.symm⟩
  · exact (drainHoist_trace hoistQueue analyzeQueue).1

end HoistPipeline

namespace BaseMembers

theorem lookupAssoc_insertSymbol (t : Table) (s : MSymbol) (k : String) :
    SymbolScopes.lookupAssoc (insertSymbol t s).1 k
      = if k = s.name then
          (match SymbolScopes.lookupAssoc t s.name with
           | none => some [s]
           | some h =>
             if isFunctionHolder h && s.isFunction then some (h ++ [s])
             else some h)
        else SymbolScopes.lookupAssoc t k := by
  unfold insertSymbol
  cases hl : SymbolScopes.lookupAssoc t s.name with
  | none => simp [SymbolScopes.lookupAssoc_setAssoc]
  | some h =>
    by_cases hg : (isFunctionHolder h && s.isFunction) = true
    · simp [hg, SymbolScopes.lookupAssoc_setAssoc]
    · simp only [Bool.not_eq_true] at hg
      simp only [hg, Bool.false_eq_true, if_false]
      by_cases hk : k = s.name
      · subst hk; simp [hl]
      · simp [hk]

theorem preservesBaseCopy_refl (t : Table) : PreservesBaseCopy t t :=
  ⟨rfl, fun _k h _x hl hx => Or.inl ⟨h, hl, hx⟩⟩

theorem preservesBaseCopy_trans {t0 t1 t2 : Table}
    (h01 : PreservesBaseCopy t0 t1) (h12 : PreservesBaseCopy t1 t2) :
    PreservesBaseCopy t0 t2 := by
  refine ⟨h12.1.trans h01.1, ?_⟩
  intro k h x hl hx
  rcases h12.2 k h x hl hx with ⟨h1, hl1, hx1⟩ | hok
  · rcases h01.2 k h1 x hl1 hx1 with hin | hok
    · exact Or.inl hin
    · exact Or.inr hok
  · exact Or.inr hok

theorem insertBaseMember_preserves (t : Table) (s : MSymbol)
    (hname : s.name ≠ "this") (hok : AdmittedByFilter s) :
    PreservesBaseCopy t (insertBaseMember t s).1 := by
  constructor
  · show SymbolScopes.lookupAssoc (insertSymbol t s).1 "this"
        = SymbolScopes.lookupAssoc t "this"
    rw [lookupAssoc_insertSymbol, if_neg (fun hh => hname hh.symm)]
  · intro k h x hl hx
    have hl2 : SymbolScopes.lookupAssoc (insertSymbol t s).1 k = some h := hl
    rw [lookupAssoc_insertSymbol] at hl2
    by_cases hk : k = s.name
    · rw [if_pos hk] at hl2
      cases hbase : SymbolScopes.lookupAssoc t s.name with
      | none =>
        rw [hbase] at hl2
        simp only [Option.some.injEq] at hl2
        subst hl2
        simp only [List.mem_singleton] at hx
        subst hx
        exact Or.inr hok
      | some h0 =>
        rw [hbase] at hl2
        by_cases hg : (isFunctionHolder h0 && s.isFunction) = true
        · simp only [hg, if_true, Option.some.injEq] at hl2
          subst hl2
          rcases List.mem_append.mp hx with hin | hsin
          · exact Or.inl ⟨h0, by rw [hk]; exact hbase, hin⟩
          · simp only [List.mem_singleton] at hsin
            subst hsin
            exact Or.inr hok
        · simp only [Bool.not_eq_true] at hg
          simp only [hg, Bool.false_eq_true, if_false, Option.some.injEq] at hl2
          exact Or.inl ⟨h0, by rw [hk]; exact hbase, hl2.symm ▸ hx⟩
    · rw [if_neg hk] at hl2
      exact Or.inl ⟨h, hl2, hx⟩

theorem insertFilteredMember_preserves (acc : Table × List Bool) (s : MSymbol)
    (hname : s.name ≠ "this") :
    PreservesBaseCopy acc.1 (insertFilteredMember acc s).1 := by
  unfold insertFilteredMember
  by_cases hc : ((s.isFunction || s.isVariable)
      && decide (s.access = some AccessModifier.privateAccess)) = true
  · simp only [hc, if_true]
    exact preservesBaseCopy_refl acc.1
  · simp only [hc, Bool.false_eq_true, if_false]
    apply insertBaseMember_preserves _ _ hname
    intro ⟨hfv, hacc⟩
    apply hc
    simp [hfv, hacc]

theorem foldl_insertFilteredMember_preserves (l : List MSymbol)
    (acc : Table × List Bool) (hnames : ∀ s ∈ l, s.name ≠ "this") :
    PreservesBaseCopy acc.1 (l.foldl insertFilteredMember acc).1 := by
  induction l generalizing acc with
  | nil => exact preservesBaseCopy_refl acc.1
  | cons s rest ih =>
    simp only [List.foldl_cons]
    exact preservesBaseCopy_trans
      (insertFilteredMember_preserves acc s (hnames s (by simp)))
      (ih _ (fun q hq => hnames q (by simp [hq])))

theorem copyHolderEntry_preserves (acc : Table × List Bool)
    (entry : String × Holder) (hnames : ∀ s ∈ entry.2, s.name = entry.1) :
    PreservesBaseCopy acc.1 (copyHolderEntry acc entry).1 := by
  unfold copyHolderEntry
  by_cases hthis : entry.1 = "this"
  · simp only [hthis, if_true]
    exact preservesBaseCopy_refl acc.1
  · simp only [hthis, if_false]
    exact foldl_insertFilteredMember_preserves entry.2 acc
      (fun s hs => by rw [hnames s hs]; exact hthis)

theorem foldl_copyHolderEntry_preserves (l : Table) (acc : Table × List Bool)
    (hwk : ∀ p ∈ l, ∀ s ∈ p.2, s.name = p.1) :
    PreservesBaseCopy acc.1 (l.foldl copyHolderEntry acc).1 := by
  induction l generalizing acc with
  | nil => exact preservesBaseCopy_refl acc.1
  | cons entry rest ih =>
    simp only [List.foldl_cons]
    exact preservesBaseCopy_trans
      (copyHolderEntry_preserves acc entry (hwk entry (by simp)))
      (ih _ (fun q hq => hwk q (by simp [hq])))

theorem copyOneBase_preserves (resolve : Nat → Option Table)
    (hres : ∀ p t, resolve p = some t → WellKeyed t)
    (acc : Table × List Bool) (base : Option ResolvedType) :
    PreservesBaseCopy acc.1 (copyOneBase resolve acc base).1 := by
  unfold copyOneBase
  cases base with
  | none => exact preservesBaseCopy_refl acc.1
  | some baseType =>
    by_cases hf : baseType.typeOrFunc.isFunction = true
    · simp only [hf, if_true]
      exact preservesBaseCopy_refl acc.1
    · simp only [Bool.not_eq_true] at hf
      simp only [hf, Bool.false_eq_true, if_false]
      cases hp : baseType.typeOrFunc.membersScopePath with
      | none => exact preservesBaseCopy_refl acc.1
      | some path =>
        dsimp only
        cases hr : resolve path with
        | none => exact preservesBaseCopy_refl acc.1
        | some baseTable =>
          dsimp only
          exact foldl_copyHolderEntry_preserves baseTable (acc.1, [])
            (hres path baseTable hr)

theorem foldl_copyOneBase_preserves (resolve : Nat → Option Table)
    (hres : ∀ p t, resolve p = some t → WellKeyed t)
    (bl : List (Option ResolvedType)) (acc : Table × List Bool) :
    PreservesBaseCopy acc.1 (bl.foldl (copyOneBase resolve) acc).1 := by
  induction bl generalizing acc with
  | nil => exact preservesBaseCopy_refl acc.1
  | cons base rest ih =>
    simp only [List.foldl_cons]
    exact preservesBaseCopy_trans (copyOneBase_preserves resolve hres acc base)
      (ih _)

/-- C2: `copyBaseMembers` never touches the `this` entry of the derived
scope, every symbol held afterwards either was already held under the same
key or is not a private function or variable (so no base `private` member
and no base `this` leaks into the derived members scope), and the
member-insertion step emits the duplicate-symbol diagnostic exactly on a
collision with an already-present incompatible holder. -/
theorem copyBaseMembers_invariants (resolve : Nat → Option Table)
    (table : Table) (baseList : List (Option ResolvedType))
    (hres : ∀ p t, resolve p = some t → WellKeyed t) :
    (SymbolScopes.lookupAssoc (copyBaseMembers resolve table baseList).1 "this"
      = SymbolScopes.lookupAssoc table "this") ∧
    (∀ k h x,
      SymbolScopes.lookupAssoc (copyBaseMembers resolve table baseList).1 k
        = some h → x ∈ h →
      (∃ h0, SymbolScopes.lookupAssoc table k = some h0 ∧ x ∈ h0)
        ∨ AdmittedByFilter x) ∧
    (∀ (t : Table) (s : MSymbol),
      (insertBaseMember t s).2 = true ↔ specCollision t s) := by
  have hmain := foldl_copyOneBase_preserves resolve hres baseList (table, [])
  refine ⟨hmain.1, hmain.2, ?_⟩
  intro t s
  unfold insertBaseMember insertSymbol specCollision
  cases hl : SymbolScopes.lookupAssoc t s.name with
  | none => simp
  | some h =>
    by_cases hg : (isFunctionHolder h && s.isFunction) = true
    · simp only [hg, if_true]
      simp only [Bool.and_eq_true] at hg
      simp only [Option.isSome_none, Bool.false_eq_true, false_iff]
      intro ⟨h2, hh2, hne⟩
      simp only [Option.some.injEq] at hh2
      subst hh2
      exact hne hg
    · simp only [hg, Bool.false_eq_true, if_false, Option.isSome_some, true_iff]
      refine ⟨h, rfl, ?_⟩
      intro ⟨hfh, hsf⟩
      apply hg
      simp [hfh, hsf]

/-- Witness for C2: copying from a base holding a public variable, a private
variable and `this` into a scope that already binds `this` leaves the `this`
binding unchanged. -/
theorem copyBaseMembers_invariants_witness :
    SymbolScopes.lookupAssoc
      (copyBaseMembers
        (fun _ => some
          [("y", [MSymbol.mk "y" SymbolKind.variableKind none none]),
           ("x", [MSymbol.mk "x" SymbolKind.variableKind
              (some AccessModifier.privateAccess) none]),
           ("this", [MSymbol.mk "this" SymbolKind.variableKind
              (some AccessModifier.privateAccess) none])])
        [("this", [MSymbol.mk "this" SymbolKind.variableKind
            (some AccessModifier.privateAccess) (some 7)])]
        [some (ResolvedType.mk
          (MSymbol.mk "B" SymbolKind.typeKind none (some 0)))]).1
      "this"
    = SymbolScopes.lookupAssoc
        [("this", [MSymbol.mk "this" SymbolKind.variableKind
            (some AccessModifier.privateAccess) (some 7)])] "this" :=
  (copyBaseMembers_invariants _ _ _
    (by
      intro p t hp
      simp only [Option.some.injEq] at hp
      subst hp
      unfold WellKeyed
      decide)).1

end BaseMembers

namespace BaseMembers

theorem foldl_insertSymbol_functions (l : List MSymbol) (nm : String) :
    ∀ (t : Table) (cur : Holder),
      (∀ c ∈ l, c.isFunction = true ∧ c.name = nm) →
      SymbolScopes.lookupAssoc t nm = some cur →
      isFunctionHolder cur = true →
      SymbolScopes.lookupAssoc
          (l.foldl (fun acc s => (insertSymbol acc s).1) t) nm
        = some (cur ++ l) ∧
      (∀ k, k ≠ nm →
        SymbolScopes.lookupAssoc
            (l.foldl (fun acc s => (insertSymbol acc s).1) t) k
          = SymbolScopes.lookupAssoc t k) := by
  induction l with
  | nil =>
    intro t cur _ hl _
    simp [hl]
  | cons s rest ih =>
    intro t cur hall hl hfh
    have hs := hall s (by simp)
    have hstep : (insertSymbol t s).1
        = SymbolScopes.setAssoc t nm (cur ++ [s]) := by
      unfold insertSymbol
      rw [hs.2, hl]
      simp [hfh, hs.1]
    have hl2 : SymbolScopes.lookupAssoc
        (SymbolScopes.setAssoc t nm (cur ++ [s])) nm = some (cur ++ [s]) := by
      simp [SymbolScopes.lookupAssoc_setAssoc]
    have hfh2 : isFunctionHolder (cur ++ [s]) = true := by
      unfold isFunctionHolder at hfh ⊢
      simp only [Bool.and_eq_true, List.all_eq_true] at hfh ⊢
      refine ⟨?_, ?_⟩
      · simp
      · intro c hc
        rcases List.mem_append.mp hc with hin | hsin
        · exact hfh.2 c hin
        · simp only [List.mem_singleton] at hsin
          subst hsin
          exact hs.1
    have hrec := ih (SymbolScopes.setAssoc t nm (cur ++ [s])) (cur ++ [s])
      (fun c hc => hall c (by simp [hc])) hl2 hfh2
    constructor
    · simp only [List.foldl_cons, hstep]
      rw [hrec.1]
      simp
    · intro k hk
      simp only [List.foldl_cons, hstep]
      rw [hrec.2 k hk, SymbolScopes.lookupAssoc_setAssoc, if_neg hk]

/-- C4: the deferred second hoist step of `hoistClass` inserts into the
class member scope one `super` function symbol per constructor of the first
base — each the private-access clone of that constructor — and inserts
nothing under `super` (leaving the scope unchanged) when the base list is
missing, empty, or unresolved, or the first base has no constructor holder.
Other keys of the scope are untouched. -/
theorem hoistClass_super_injection (resolve : Nat → Option Table)
    (scope : Table) (baseList : Option (List (Option ResolvedType)))
    (hfresh : SymbolScopes.lookupAssoc scope "super" = none) :
    (constructorsOfFirstBase resolve baseList = [] →
      insertSuperConstructors resolve scope baseList = scope) ∧
    (constructorsOfFirstBase resolve baseList ≠ [] →
      SymbolScopes.lookupAssoc
          (insertSuperConstructors resolve scope baseList) "super"
        = some ((constructorsOfFirstBase resolve baseList).map cloneAsSuper) ∧
      ∀ k, k ≠ "super" →
        SymbolScopes.lookupAssoc
            (insertSuperConstructors resolve scope baseList) k
          = SymbolScopes.lookupAssoc scope k) := by
  cases baseList with
  | none => exact ⟨fun _ => rfl, fun hne => absurd rfl hne⟩
  | some bl =>
    unfold insertSuperConstructors constructorsOfFirstBase
    dsimp only
    cases hfc : findConstructorOfType resolve
        (match bl with | [] => none | x :: _ => x) with
    | none => exact ⟨fun _ => rfl, fun hne => absurd rfl hne⟩
    | some h =>
      by_cases hfh : isFunctionHolder h = true
      · simp only [hfh, if_true]
        cases hh : h with
        | nil =>
          subst hh
          simp [isFunctionHolder] at hfh
        | cons c hrest =>
          refine ⟨fun habs => absurd habs (by simp [hh]), fun _ => ?_⟩
          subst hh
          rw [← List.foldl_map cloneAsSuper (fun acc s => (insertSymbol acc s).1)]
          simp only [List.map_cons, List.foldl_cons]
          have hfirst : (insertSymbol scope (cloneAsSuper c)).1
              = SymbolScopes.setAssoc scope "super" [cloneAsSuper c] := by
            unfold insertSymbol
            have : (cloneAsSuper c).name = "super" := rfl
            rw [this, hfresh]
          have hl2 : SymbolScopes.lookupAssoc
              (SymbolScopes.setAssoc scope "super" [cloneAsSuper c]) "super"
              = some [cloneAsSuper c] := by
            simp [SymbolScopes.lookupAssoc_setAssoc]
          have hfuncs : ∀ x ∈ hrest.map cloneAsSuper,
              x.isFunction = true ∧ x.name = "super" := by
            intro x hx
            simp only [List.mem_map] at hx
            obtain ⟨ctor, hctor, hxeq⟩ := hx
            subst hxeq
            refine ⟨?_, rfl⟩
            have hcf : ctor.isFunction = true := by
              unfold isFunctionHolder at hfh
              simp only [Bool.and_eq_true, List.all_eq_true] at hfh
              exact hfh.2 ctor (by simp [hctor])
            simpa [cloneAsSuper, MSymbol.isFunction] using hcf
          have hfh1 : isFunctionHolder [cloneAsSuper c] = true := by
            unfold isFunctionHolder
            simp only [Bool.and_eq_true, List.all_eq_true]
            refine ⟨by simp, ?_⟩
            intro x hx
            simp only [List.mem_singleton] at hx
            subst hx
            have hcf : c.isFunction = true := by
              unfold isFunctionHolder at hfh
              simp only [Bool.and_eq_true, List.all_eq_true] at hfh
              exact hfh.2 c (by simp)
            simpa [cloneAsSuper, MSymbol.isFunction] using hcf
          have hrec := foldl_insertSymbol_functions (hrest.map cloneAsSuper)
            "super" (SymbolScopes.setAssoc scope "super" [cloneAsSuper c])
            [cloneAsSuper c] hfuncs hl2 hfh1
          rw [hfirst]
          refine ⟨?_, ?_⟩
          · rw [hrec.1]
            simp
          · intro k hk
            rw [hrec.2 k hk, SymbolScopes.lookupAssoc_setAssoc, if_neg hk]
      · simp only [Bool.not_eq_true] at hfh
        simp only [hfh, Bool.false_eq_true, if_false]
        exact ⟨fun _ => trivial, fun hne => absurd rfl hne⟩

/-- Witness for C4: a base with one constructor yields exactly one cloned
`super` entry in the class scope. -/
theorem hoistClass_super_injection_witness :
    SymbolScopes.lookupAssoc
      (insertSuperConstructors
        (fun _ => some [("B", [MSymbol.mk "B" SymbolKind.functionKind none none])])
        []
        (some [some (ResolvedType.mk
          (MSymbol.mk "B" SymbolKind.typeKind none (some 0)))]))
      "super"
    = some [MSymbol.mk "super" SymbolKind.functionKind
        (some AccessModifier.privateAccess) none] :=
  ((hoistClass_super_injection
    (fun _ => some [("B", [MSymbol.mk "B" SymbolKind.functionKind none none])])
    []
    (some [some (ResolvedType.mk
      (MSymbol.mk "B" SymbolKind.typeKind none (some 0)))])
    rfl).2 (by decide)).1

end BaseMembers

namespace FuncHoist

theorem lookupAssoc_insertFSymbol (t : FTable) (s : FSymbol) (k : String) :
    SymbolScopes.lookupAssoc (insertSymbol t s).1 k
      = if k = s.name then
          (match SymbolScopes.lookupAssoc t s.name with
           | none => some [s]
           | some h =>
             if isFunctionHolder h && s.isFunction then some (h ++ [s])
             else some h)
        else SymbolScopes.lookupAssoc t k := by
  unfold insertSymbol
  cases hl : SymbolScopes.lookupAssoc t s.name with
  | none => simp [SymbolScopes.lookupAssoc_setAssoc]
  | some h =>
    by_cases hg : (isFunctionHolder h && s.isFunction) = true
    · simp [hg, SymbolScopes.lookupAssoc_setAssoc]
    · simp only [Bool.not_eq_true] at hg
      simp only [hg, Bool.false_eq_true, if_false]
      by_cases hk : k = s.name
      · subst hk; simp [hl]
      · simp [hk]

/-- C3: once `hoistFunc` has inserted the function symbol, a `get_`/`set_`
identifier combined with the property attribute or a disabled
`explicitPropertyAccessor` setting makes it insert the synthetic variable —
named by dropping the four-character accessor marker, typed by the resolved
return type, with the function's instance flag and access restriction — with
no diagnostic; while a property-attributed function without either marker
gets the property-accessor diagnostic and no synthetic variable. -/
theorem hoistFunc_property_accessors (explicitPA : Bool) (table : FTable)
    (node : FuncNodeInput) (isInstanceMember : Bool)
    (hd : node.isDestructorHead = false)
    (hok : (insertSymbolAndCheck table
      (hoistedFunctionSymbol node isInstanceMember)).2 = true) :
    ((textStartsWith node.identifierText "get_"
        || textStartsWith node.identifierText "set_") = true →
      (node.funcAttrIsProperty || !explicitPA) = true →
      (hoistFunc explicitPA table node isInstanceMember).2 = [] ∧
      (SymbolScopes.lookupAssoc
          (insertSymbolAndCheck table
            (hoistedFunctionSymbol node isInstanceMember)).1
          (dropMarker node.identifierText) = none →
        SymbolScopes.lookupAssoc
            (hoistFunc explicitPA table node isInstanceMember).1
            (dropMarker node.identifierText)
          = some [syntheticPropertyVariable node isInstanceMember])) ∧
    ((textStartsWith node.identifierText "get_"
        || textStartsWith node.identifierText "set_") = false →
      node.funcAttrIsProperty = true →
      (hoistFunc explicitPA table node isInstanceMember).1
        = (insertSymbolAndCheck table
            (hoistedFunctionSymbol node isInstanceMember)).1 ∧
      (hoistFunc explicitPA table node isInstanceMember).2
        = [FuncDiag.propertyAccessorName]) := by
  constructor
  · intro hpre hprop
    unfold hoistFunc
    simp only [hd, Bool.false_eq_true, if_false, hok, Bool.not_true,
      hpre, hprop, if_true]
    refine ⟨by trivial, ?_⟩
    intro hnone
    rw [lookupAssoc_insertFSymbol]
    have hname : (syntheticPropertyVariable node isInstanceMember).name
        = dropMarker node.identifierText := rfl
    rw [hname, if_pos rfl, hnone]
  · intro hpre hprop
    unfold hoistFunc
    simp only [hd, Bool.false_eq_true, if_false, hok, Bool.not_true,
      hpre, hprop, if_true]
    exact ⟨by trivial, by trivial⟩

/-- Witness for C3: with `explicitPropertyAccessor` disabled, hoisting
`int get_v()` into an empty scope makes the synthetic variable `v` visible. -/
theorem hoistFunc_property_accessors_witness :
    SymbolScopes.lookupAssoc
      (hoistFunc false []
        (FuncNodeInput.mk false "get_v" false none (some 3)) true).1
      (dropMarker "get_v")
    = some [syntheticPropertyVariable
        (FuncNodeInput.mk false "get_v" false none (some 3)) true] :=
  ((hoistFunc_property_accessors false []
    (FuncNodeInput.mk false "get_v" false none (some 3)) true
    rfl (by decide)).1 (by decide) (by decide)).2 (by decide)

end FuncHoist

namespace SigHelp

theorem computeActiveIndex_closed (caret : TextPosition)
    (args : List ArgRange) (paramCount : Nat) :
    computeActiveIndex caret args paramCount
      = specActiveIndex caret args paramCount := by
  induction paramCount with
  | zero => rfl
  | succ n ih =>
    unfold computeActiveIndex specActiveIndex candidateIndices at *
    rw [List.range_succ, List.foldl_append, List.filter_append]
    simp only [List.foldl_cons, List.foldl_nil, List.filter_cons,
      List.filter_nil]
    cases hg : args.get? n with
    | none =>
      simp only [hg, List.append_nil, Bool.false_eq_true, if_false]
      exact ih
    | some arg =>
      by_cases hlt : caret.isLessThan arg.start = true
      · simp only [hg, hlt, if_true, Bool.not_true, Bool.false_eq_true,
          if_false, List.append_nil]
        exact ih
      · simp only [Bool.not_eq_true] at hlt
        simp only [hg, hlt, Bool.false_eq_true, if_false, Bool.not_false,
          if_true, List.getLast?_concat]

/-- Counterexample to C7: in a two-parameter call `f(10, 20)` — first
argument starting at column 2 with its comma at column 4, second argument
starting at column 6 — a caret at column 3 sits inside the first argument,
before the comma, so zero commas separate arguments before the caret; yet
the produced signature's `activeParameter` is 1, because the loop advances
past an active argument whenever a comma follows its range, wherever the
caret is within it. -/
theorem signatureHelp_activeParameter_counterexample :
    (getFunctionSignature (TextPosition.mk 0 3)
        [ArgRange.mk (TextPosition.mk 0 2) (some (TextPosition.mk 0 4)),
         ArgRange.mk (TextPosition.mk 0 6) none]
        (FunctionDef.mk 2)).activeParameter = 1 ∧
    commasBeforeCaret (TextPosition.mk 0 3)
        [ArgRange.mk (TextPosition.mk 0 2) (some (TextPosition.mk 0 4)),
         ArgRange.mk (TextPosition.mk 0 6) none] = 0 ∧
    (getFunctionSignature (TextPosition.mk 0 3)
        [ArgRange.mk (TextPosition.mk 0 2) (some (TextPosition.mk 0 4)),
         ArgRange.mk (TextPosition.mk 0 6) none]
        (FunctionDef.mk 2)).activeParameter
      ≠ commasBeforeCaret (TextPosition.mk 0 3)
        [ArgRange.mk (TextPosition.mk 0 2) (some (TextPosition.mk 0 4)),
         ArgRange.mk (TextPosition.mk 0 6) none] := by
  decide

/-- C7 (amended): signature help returns exactly one signature per overload
of the resolved holder, in order; and each signature's `activeParameter`
equals the last argument index (below the parameter count) whose argument
starts at or before the caret — advanced by one when a comma follows that
argument's range — and 0 when no argument starts at or before the caret; it
is not the comma count before the caret and it may exceed the index of the
last parameter. -/
theorem signatureHelp_signatures_amended (caret : TextPosition)
    (args : List ArgRange) (overloads : List FunctionDef) :
    (provideSignatures caret args overloads).length = overloads.length ∧
    (∀ (i : Nat) (f : FunctionDef), overloads.get? i = some f →
      (provideSignatures caret args overloads).get? i
        = some (Signature.mk f.paramCount
            (specActiveIndex caret args f.paramCount))) := by
  constructor
  · simp [provideSignatures]
  · intro i f hf
    simp only [provideSignatures, List.get?_map, hf]
    simp [getFunctionSignature, computeActiveIndex_closed]

/-- Witness for C7 (amended): the counterexample call yields one signature
for its single overload, with the loop's closed-form active parameter. -/
theorem signatureHelp_signatures_amended_witness :
    (provideSignatures (TextPosition.mk 0 3)
        [ArgRange.mk (TextPosition.mk 0 2) (some (TextPosition.mk 0 4)),
         ArgRange.mk (TextPosition.mk 0 6) none]
        [FunctionDef.mk 2]).get? 0
      = some (Signature.mk 2
          (specActiveIndex (TextPosition.mk 0 3)
            [ArgRange.mk (TextPosition.mk 0 2) (some (TextPosition.mk 0 4)),
             ArgRange.mk (TextPosition.mk 0 6) none] 2)) :=
  (signatureHelp_signatures_amended (TextPosition.mk 0 3)
    [ArgRange.mk (TextPosition.mk 0 2) (some (TextPosition.mk 0 4)),
     ArgRange.mk (TextPosition.mk 0 6) none]
    [FunctionDef.mk 2]).2 0 (FunctionDef.mk 2) rfl

end SigHelp

namespace PureScope

theorem lookupAssoc_mem {α : Type} (t : List (String × α)) (k : String)
    (v : α) (h : SymbolScopes.lookupAssoc t k = some v) : (k, v) ∈ t := by
  induction t with
  | nil => simp [SymbolScopes.lookupAssoc] at h
  | cons kv rest ih =>
    obtain ⟨a, b⟩ := kv
    unfold SymbolScopes.lookupAssoc at h
    by_cases hak : a = k
    · subst hak
      rw [if_pos rfl] at h
      injection h with h2
      subst h2
      simp
    · rw [if_neg hak] at h
      exact List.mem_cons_of_mem _ (ih h)

theorem mem_setAssoc {α : Type} (t : List (String × α)) (k : String) (v : α)
    (kv : String × α) (h : kv ∈ SymbolScopes.setAssoc t k v) :
    kv ∈ t ∨ kv = (k, v) := by
  induction t with
  | nil =>
    simp [SymbolScopes.setAssoc] at h
    exact Or.inr h
  | cons hd rest ih =>
    obtain ⟨a, b⟩ := hd
    unfold SymbolScopes.setAssoc at h
    by_cases hak : a = k
    · subst hak
      rw [if_pos rfl] at h
      rcases List.mem_cons.mp h with h | h
      · exact Or.inr (by simp [h])
      · exact Or.inl (List.mem_cons_of_mem _ h)
    · rw [if_neg hak] at h
      rcases List.mem_cons.mp h with h | h
      · exact Or.inl (by simp [h])
      · rcases ih h with hin | heq
        · exact Or.inl (List.mem_cons_of_mem _ hin)
        · exact Or.inr heq

theorem mem_allSymbolsOfChildren (s : PSymbol) :
    ∀ children : List (String × SScope),
      s ∈ allSymbolsOfChildren children
        ↔ ∃ kv ∈ children, s ∈ allSymbols kv.2 := by
  intro children
  induction children with
  | nil => simp [allSymbolsOfChildren]
  | cons kv rest ih =>
    obtain ⟨k, c⟩ := kv
    rw [allSymbolsOfChildren]
    simp only [List.mem_append, ih, List.mem_cons]
    constructor
    · intro h
      rcases h with h | ⟨kv2, hkv2, hs⟩
      · exact ⟨(k, c), Or.inl rfl, h⟩
      · exact ⟨kv2, Or.inr hkv2, hs⟩
    · intro ⟨kv2, hkv2, hs⟩
      rcases hkv2 with rfl | hkv2
      · exact Or.inl hs
      · exact Or.inr ⟨kv2, hkv2, hs⟩

theorem allSymbols_eq (o : Option Nat) (k : String)
    (syms : List (String × PSymbol)) (children : List (String × SScope)) :
    allSymbols (SScope.mk o k syms children)
      = syms.map Prod.snd ++ allSymbolsOfChildren children := by
  rw [allSymbols]

theorem mem_allSymbols_setSymbol (d : SScope) (k : String) (v : PSymbol)
    (s : PSymbol) (h : s ∈ allSymbols (d.setSymbol k v)) :
    s ∈ allSymbols d ∨ s = v := by
  cases d with
  | mk o key syms children =>
    rw [SScope.setSymbol, allSymbols_eq] at h
    rw [allSymbols_eq]
    rcases List.mem_append.mp h with h | h
    · simp only [List.mem_map] at h
      obtain ⟨kv, hkv, hsnd⟩ := h
      rcases mem_setAssoc syms k v kv hkv with hin | heq
      · exact Or.inl (List.mem_append.mpr (Or.inl
          (List.mem_map.mpr ⟨kv, hin, hsnd⟩)))
      · subst heq
        exact Or.inr hsnd.symm
    · exact Or.inl (List.mem_append.mpr (Or.inr h))

theorem mem_allSymbols_setChild (d : SScope) (k : String) (c : SScope)
    (s : PSymbol) (h : s ∈ allSymbols (d.setChild k c)) :
    s ∈ allSymbols d ∨ s ∈ allSymbols c := by
  cases d with
  | mk o key syms children =>
    rw [SScope.setChild, allSymbols_eq] at h
    rw [allSymbols_eq]
    rcases List.mem_append.mp h with h | h
    · exact Or.inl (List.mem_append.mpr (Or.inl h))
    · rw [mem_allSymbolsOfChildren] at h
      obtain ⟨kv, hkv, hs⟩ := h
      rcases mem_setAssoc children k c kv hkv with hin | heq
      · exact Or.inl (List.mem_append.mpr (Or.inr
          ((mem_allSymbolsOfChildren s children).mpr ⟨kv, hin, hs⟩)))
      · subst heq
        exact Or.inr hs

theorem mem_allSymbols_of_lookup (d : SScope) (k : String) (c : SScope)
    (hl : SymbolScopes.lookupAssoc d.childScopes k = some c)
    (s : PSymbol) (hs : s ∈ allSymbols c) : s ∈ allSymbols d := by
  cases d with
  | mk o key syms children =>
    rw [allSymbols_eq]
    refine List.mem_append.mpr (Or.inr ?_)
    exact (mem_allSymbolsOfChildren s children).mpr
      ⟨(k, c), lookupAssoc_mem children k c hl, hs⟩

theorem allSymbols_adopted (o : Nat) (found : SScope) :
    allSymbols (SScope.mk (some o) found.key found.symbolMap
      found.childScopes) = allSymbols found := by
  cases found with
  | mk fo fk fs fc =>
    simp only [SScope.key, SScope.symbolMap, SScope.childScopes]
    rw [allSymbols_eq, allSymbols_eq]

theorem mem_findOrInsertChild_snd (oN : Option Nat) (d : SScope) (k : String)
    (s : PSymbol) (h : s ∈ allSymbols (findOrInsertChild oN d k).2) :
    s ∈ allSymbols d := by
  unfold findOrInsertChild at h
  cases hl : SymbolScopes.lookupAssoc d.childScopes k with
  | none =>
    rw [hl] at h
    simp only [allSymbols_eq, List.map_nil, allSymbolsOfChildren,
      List.nil_append] at h
    cases h
  | some found =>
    rw [hl] at h
    dsimp only at h
    cases oN with
    | none => exact mem_allSymbols_of_lookup d k found hl s h
    | some o =>
      dsimp only at h
      cases hf : found.ownerNode with
      | none =>
        rw [hf] at h
        dsimp only at h
        rw [allSymbols_adopted] at h
        exact mem_allSymbols_of_lookup d k found hl s h
      | some o2 =>
        rw [hf] at h
        exact mem_allSymbols_of_lookup d k found hl s h

theorem mem_findOrInsertChild_fst (oN : Option Nat) (d : SScope) (k : String)
    (s : PSymbol) (h : s ∈ allSymbols (findOrInsertChild oN d k).1) :
    s ∈ allSymbols d := by
  unfold findOrInsertChild at h
  cases hl : SymbolScopes.lookupAssoc d.childScopes k with
  | none =>
    rw [hl] at h
    dsimp only at h
    rcases mem_allSymbols_setChild d k _ s h with hin | hfr
    · exact hin
    · simp only [allSymbols_eq, List.map_nil, allSymbolsOfChildren,
        List.nil_append] at hfr
      cases hfr
  | some found =>
    rw [hl] at h
    dsimp only at h
    cases oN with
    | none => exact h
    | some o =>
      dsimp only at h
      cases hf : found.ownerNode with
      | none =>
        rw [hf] at h
        dsimp only at h
        rcases mem_allSymbols_setChild d k _ s h with hin | had
        · exact hin
        · rw [allSymbols_adopted] at had
          exact mem_allSymbols_of_lookup d k found hl s had
      | some o2 =>
        rw [hf] at h
        exact h

theorem mem_copySymbolTable (opt : CopyOptions) (p : String)
    (hopt : opt.targetSrcPath = some p) :
    ∀ (syms : List (String × PSymbol)) (dest : SScope) (s : PSymbol),
      s ∈ allSymbols (copySymbolTable opt syms dest) →
      s ∈ allSymbols dest ∨ s.declaredPath = p := by
  intro syms
  induction syms with
  | nil =>
    intro dest s h
    exact Or.inl h
  | cons kv rest ih =>
    intro dest s h
    rw [copySymbolTable, List.foldl_cons] at h
    have h2 := ih _ s (by rw [copySymbolTable]; exact h)
    rcases h2 with h2 | h2
    · by_cases hc : canCopySymbol opt kv.2 = true
      · rw [if_pos hc] at h2
        rcases mem_allSymbols_setSymbol dest kv.1 kv.2 s h2 with hin | heq
        · exact Or.inl hin
        · subst heq
          unfold canCopySymbol at hc
          rw [hopt] at hc
          simp only [Bool.and_eq_true, decide_eq_true_eq] at hc
          exact Or.inr hc.1
      · rw [if_neg hc] at h2
        exact Or.inl h2
    · exact Or.inr h2

theorem mem_copySymbolsInScope (getPath : SScope → Option String)
    (opt : CopyOptions) (p : String) (hopt : opt.targetSrcPath = some p) :
    ∀ (src dest : SScope) (s : PSymbol),
      s ∈ allSymbols (copySymbolsInScope getPath opt src dest) →
      s ∈ allSymbols dest ∨ s.declaredPath = p := by
  intro src dest
  refine copySymbolsInScope.induct getPath opt
    (fun src dest => ∀ s : PSymbol,
      s ∈ allSymbols (copySymbolsInScope getPath opt src dest) →
      s ∈ allSymbols dest ∨ s.declaredPath = p)
    (fun children dest => ∀ s : PSymbol,
      s ∈ allSymbols (copyChildScopes getPath opt children dest) →
      s ∈ allSymbols dest ∨ s.declaredPath = p)
    ?_ ?_ ?_ src dest
  · intro ownerNode key ssyms schildren dest ih s h
    rw [copySymbolsInScope] at h
    rcases ih s h with h2 | h2
    · exact mem_copySymbolTable opt p hopt ssyms dest s h2
    · exact Or.inr h2
  · intro dest s h
    rw [copyChildScopes] at h
    exact Or.inl h
  · intro key child rest dest dest' ihcopy1 ihcopy2 ihrest s h
    rw [copyChildScopes] at h
    have h1 : s ∈ allSymbols (copyChildScopes getPath opt rest dest') := h
    rcases ihrest s h1 with h2 | h2
    · have h3 : s ∈ allSymbols
          (if _h : skipChild opt (getPath child) = true then dest
           else
             (findOrInsertChild child.ownerNode dest key).1.setChild key
               (copySymbolsInScope getPath opt child
                 (findOrInsertChild child.ownerNode dest key).2)) := h2
      by_cases hskip : skipChild opt (getPath child) = true
      · rw [dif_pos hskip] at h3
        exact Or.inl h3
      · rw [dif_neg hskip] at h3
        rcases mem_allSymbols_setChild _ key _ s h3 with hin | hcp
        · exact Or.inl (mem_findOrInsertChild_fst child.ownerNode dest key s hin)
        · rcases ihcopy2 s hcp with hin2 | hp
          · exact Or.inl
              (mem_findOrInsertChild_snd child.ownerNode dest key s hin2)
          · exact Or.inr hp
    · exact Or.inr h2

/-- C10: the `pureScope` getter is memoized — once read, a second read
returns the same scope and state, so the copy runs at most once — and every
symbol reachable in the symbol tables of the pure scope of a freshly
constructed `AnalyzedScope` has its declared-place path equal to the
analyzed file's path, for every behavior of `getPathOfScope`. -/
theorem pureScope_memoized_and_filtered (getPath : SScope → Option String)
    (path : String) (full : SScope) :
    (∀ a : AnalyzedScope,
      pureScope getPath (pureScope getPath a).2
        = ((pureScope getPath a).1, (pureScope getPath a).2)) ∧
    (∀ s ∈ allSymbols (pureScope getPath (AnalyzedScope.new path full)).1,
      s.declaredPath = path) := by
  constructor
  · intro a
    cases hb : a.pureBuffer with
    | some b => simp [pureScope, hb]
    | none => simp [pureScope, hb]
  · intro s hs
    simp only [pureScope, AnalyzedScope.new] at hs
    rcases mem_copySymbolsInScope getPath
        { targetSrcPath := some path, excludeSrcPath := none } path rfl
        full (SScope.mk full.ownerNode full.key [] []) s hs with hin | hp
    · simp only [allSymbols_eq, List.map_nil, allSymbolsOfChildren,
        List.nil_append] at hin
      cases hin
    · exact hp

/-- Witness for C10: the pure scope of a file whose full scope holds one
symbol declared at the file's own path contains that symbol, with the
matching declared path. -/
theorem pureScope_memoized_and_filtered_witness :
    (PSymbol.mk "p").declaredPath = "p" :=
  (pureScope_memoized_and_filtered (fun _ => none) "p"
    (SScope.mk none "g" [("a", PSymbol.mk "p")] [])).2 (PSymbol.mk "p")
    (by
      simp only [pureScope, AnalyzedScope.new, copySymbolsInScope,
        copyChildScopes, copySymbolTable, List.foldl_cons, List.foldl_nil,
        canCopySymbol]
      simp [SScope.setSymbol, SymbolScopes.setAssoc, allSymbols_eq,
        allSymbolsOfChildren])

end PureScope
